import Mathlib

/-!
Verification of the todo-list application (src/js/todos.js).

JavaScript strings are modelled as Lean `String`s, with the character-level
operations (`split(" ")`, `join(" ")`, `slice(0, 30)`) carried out on the
underlying `List Char`.  JavaScript numbers holding order counters are
modelled as `Int`.  The Backbone collection is modelled as a `List Todo`
kept sorted by the `order` attribute (the collection declares
`comparator: 'order'`, so Backbone inserts every added model at its sorted
position).  Nullable attributes (`createdAt`, `modifiedAt`) are `Option`s.
-/

/-- The space character, on which the sanitizer splits and rejoins. -/
def spaceChar : Char := Char.ofNat 32

/-- A todo record: the attributes from the model defaults of `Todo`
(title, order, done, createdAt, modifiedAt, taskInfo). -/
structure Todo where
  title : String
  order : Int
  done : Bool
  createdAt : Option String
  modifiedAt : Option String
  taskInfo : String
deriving DecidableEq, Repr

/-- `Todo.toggle`: `this.save({done: !this.get("done")})` — negates the
`done` attribute and changes nothing else. -/
def Todo.toggle (t : Todo) : Todo :=
  { t with done := !t.done }

namespace TodoList

/-- `done()`: `this.where({done: true})` — the models whose `done`
attribute is `true`, in collection order. -/
def doneItems (l : List Todo) : List Todo :=
  l.filter (fun t => t.done)

/-- `remaining()`: `this.where({done: false})` — the models whose `done`
attribute is `false`, in collection order. -/
def remaining (l : List Todo) : List Todo :=
  l.filter (fun t => !t.done)

/-- `nextOrder()`: `if (!this.length) return 1; return this.last().get('order') + 1`. -/
def nextOrder (l : List Todo) : Int :=
  match l.getLast? with
  | none => 1
  | some t => t.order + 1

end TodoList

/-- Attributes passed to `Todos.create` / `new Todo`; attributes not passed
are `none` and are filled in by the model defaults. -/
structure CreateAttrs where
  title : Option String
  createdAt : Option String
  modifiedAt : Option String
deriving DecidableEq, Repr

/-- The model `defaults` applied to the attributes passed at creation:
`title` defaults to `"empty todo..."`, `order` to `Todos.nextOrder()`
(computed on the collection before the new model is added), `done` to
`false`, `createdAt` and `modifiedAt` to `null`, `taskInfo` to `""`. -/
def Todo.mkNew (coll : List Todo) (attrs : CreateAttrs) : Todo :=
  { title := attrs.title.getD "empty todo..."
    order := TodoList.nextOrder coll
    done := false
    createdAt := attrs.createdAt
    modifiedAt := attrs.modifiedAt
    taskInfo := "" }

namespace TodoList

/-- Insertion at the sorted position determined by the collection
`comparator: 'order'` (Backbone computes the insertion index with a
lower-bound search on the comparator attribute). -/
def insertSorted (t : Todo) : List Todo → List Todo
  | [] => [t]
  | x :: xs => if t.order ≤ x.order then t :: x :: xs else x :: insertSorted t xs

/-- `Todos.create(attrs)`: build the model (defaults filling the missing
attributes) and add it to the collection at its sorted position. -/
def create (l : List Todo) (attrs : CreateAttrs) : List Todo :=
  insertSorted (Todo.mkNew l attrs) l

/-- A sequence of `create` calls, starting from a given collection state. -/
def createAll (l : List Todo) (as : List CreateAttrs) : List Todo :=
  as.foldl create l

/-- `clearCompleted`: `_.invoke(Todos.done(), 'destroy')` — the list of done
models is computed first, then each is destroyed; destroying a model
removes it from the collection. -/
def clearCompleted (l : List Todo) : List Todo :=
  (doneItems l).foldl (fun acc t => acc.erase t) l

end TodoList

/-- JavaScript `str.split(" ")` on the character list: cut at every
occurrence of the space character, keeping empty segments
(`"".split(" ")` is `[""]`, `" ".split(" ")` is `["", ""]`). -/
def splitOnSpace : List Char → List (List Char)
  | [] => [[]]
  | c :: cs =>
    if c = spaceChar then [] :: splitOnSpace cs
    else
      match splitOnSpace cs with
      | [] => [[c]]
      | t :: ts => (c :: t) :: ts

/-- JavaScript `arr.join(" ")` on character lists: interleave a single
space character between the elements. -/
def joinSpace : List (List Char) → List Char
  | [] => []
  | [t] => t
  | t :: u :: ts => t ++ spaceChar :: joinSpace (u :: ts)

/-- The `forEach` loop body of `sanitize`: drop empty tokens, truncate a
token longer than 30 characters to its first 30 (`element.slice(0, 30)`),
push the survivors in order. -/
def sanitizeTokens : List (List Char) → List (List Char)
  | [] => []
  | e :: rest =>
    if e ≠ [] then
      (if e.length > 30 then e.take 30 else e) :: sanitizeTokens rest
    else sanitizeTokens rest

/-- `sanitize(taskInfo)`: split on `" "`, run the `forEach` loop, join the
collected tokens with `" "`. -/
def sanitize (s : String) : String :=
  ⟨joinSpace (sanitizeTokens (splitOnSpace s.data))⟩

/-- Modelled from the spec: "split on single spaces, drop empty tokens,
truncate any token longer than 30 characters to its first 30 characters,
rejoin with single spaces", as a filter-then-map pipeline. -/
def sanitizeSpec (s : String) : String :=
  ⟨joinSpace (((splitOnSpace s.data).filter (fun t => t ≠ [])).map
      (fun t => if t.length > 30 then t.take 30 else t))⟩

namespace TodoView

/-- `close()`: with the current content `value` of the title input and
`taskInfo` of the notes textarea, an empty `value` destroys the model
(`this.clear()`), otherwise the model is saved with the new title, the
modification date, and the sanitized notes. `none` stands for the
destroyed model. -/
def close (value taskInfo modifiedDate : String) (t : Todo) : Option Todo :=
  if value = "" then none
  else some { t with
    title := value
    modifiedAt := some modifiedDate
    taskInfo := sanitize taskInfo }

/-- The effect of `close()` on the collection holding the view's model at
position `i`: destroying removes the model, saving updates it in place
(its `order` is unchanged, so its sorted position is unchanged). -/
def closeColl (value taskInfo modifiedDate : String) (l : List Todo) (i : Nat) :
    List Todo :=
  match l[i]? with
  | none => l
  | some t =>
    match close value taskInfo modifiedDate t with
    | none => l.eraseIdx i
    | some t' => l.set i t'

/-- `updateOnEnter(e)`: key code 13 closes the edit (the JS handler then
returns `undefined`, modelled as `none`); an ASCII letter, digit or space
returns `true`; every other key code returns `false`. -/
def updateOnEnter (keyCode : Int) : Option Bool :=
  if keyCode = 13 then none
  else if (64 < keyCode ∧ keyCode < 91) ∨ (96 < keyCode ∧ keyCode < 123) ∨
      (47 < keyCode ∧ keyCode < 58) ∨ keyCode = 32 then some true
  else some false

end TodoView

/-- The key-code set the claim describes: ASCII letters (65–90, 97–122),
digits (48–57) and the space (32). -/
def isAlnumOrSpace (keyCode : Int) : Prop :=
  (65 ≤ keyCode ∧ keyCode ≤ 90) ∨ (97 ≤ keyCode ∧ keyCode ≤ 122) ∨
    (48 ≤ keyCode ∧ keyCode ≤ 57) ∨ keyCode = 32

instance (k : Int) : Decidable (isAlnumOrSpace k) := by
  unfold isAlnumOrSpace
  infer_instance

/-- The largest `order` attribute in a non-empty collection (0 for the
empty collection, where it is unused). -/
def maxOrder : List Todo → Int
  | [] => 0
  | [t] => t.order
  | t :: u :: rest => max t.order (maxOrder (u :: rest))

/-- A concrete done item used in witness statements. -/
def doneA : Todo :=
  { title := "Buy milk", order := 1, done := true,
    createdAt := none, modifiedAt := none, taskInfo := "" }

/-- A second concrete done item used in witness statements. -/
def doneB : Todo :=
  { title := "Walk dog", order := 2, done := true,
    createdAt := none, modifiedAt := none, taskInfo := "" }

/-- A concrete remaining (not done) item used in witness statements. -/
def remA : Todo :=
  { title := "Write spec", order := 3, done := false,
    createdAt := none, modifiedAt := none, taskInfo := "" }

/-- Concrete creation attributes used in witness statements. -/
def attrsA : CreateAttrs :=
  { title := some "Buy milk", createdAt := some "d1", modifiedAt := some "d1" }

/-- Concrete creation attributes with no title, used in witness statements. -/
def attrsNoTitle : CreateAttrs :=
  { title := none, createdAt := none, modifiedAt := none }

example : sanitize "  hello   world  " = "hello world" := by decide
example : sanitize (String.mk (List.replicate 35 (Char.ofNat 97))) =
    String.mk (List.replicate 30 (Char.ofNat 97)) := by decide
example : TodoList.clearCompleted [doneA, doneB, remA] = [remA] := by decide
example : TodoView.updateOnEnter 13 = none := by decide
example : TodoView.updateOnEnter 65 = some true := by decide
example : TodoView.updateOnEnter 33 = some false := by decide

/-! ## Lemmas about the sanitizer -/

/-- `splitOnSpace` always returns at least one token. -/
theorem splitOnSpace_ne_nil : ∀ l : List Char, splitOnSpace l ≠ [] := by
  intro l
  induction l with
  | nil => simp [splitOnSpace]
  | cons c cs ih =>
    unfold splitOnSpace
    by_cases hc : c = spaceChar
    · simp [hc]
    · rw [if_neg hc]
      cases h : splitOnSpace cs <;> simp

/-- Tokens produced by `splitOnSpace` contain no space character. -/
theorem splitOnSpace_noSpace : ∀ l : List Char, ∀ t ∈ splitOnSpace l, spaceChar ∉ t := by
  intro l
  induction l with
  | nil =>
    intro t ht
    simp only [splitOnSpace, List.mem_singleton] at ht
    subst ht
    simp
  | cons c cs ih =>
    intro t ht
    unfold splitOnSpace at ht
    by_cases hc : c = spaceChar
    · rw [if_pos hc] at ht
      rcases List.mem_cons.mp ht with h | h
      · subst h; simp
      · exact ih t h
    · rw [if_neg hc] at ht
      cases hsp : splitOnSpace cs with
      | nil => exact absurd hsp (splitOnSpace_ne_nil cs)
      | cons u us =>
        rw [hsp] at ht
        rcases List.mem_cons.mp ht with h | h
        · subst h
          intro hmem
          rcases List.mem_cons.mp hmem with h | h
          · exact hc h.symm
          · exact ih u (by rw [hsp]; exact List.mem_cons_self u us) h
        · exact ih t (by rw [hsp]; exact List.mem_cons.mpr (Or.inr h))

/-- A space-free character list splits into the single token it is. -/
theorem splitOnSpace_of_noSpace : ∀ t : List Char, spaceChar ∉ t → splitOnSpace t = [t] := by
  intro t
  induction t with
  | nil => intro; rfl
  | cons c cs ih =>
    intro h
    have hc : ¬ c = spaceChar := by
      intro he
      exact h (List.mem_cons.mpr (Or.inl he.symm))
    have hcs : spaceChar ∉ cs := fun hm => h (List.mem_cons.mpr (Or.inr hm))
    simp [splitOnSpace, hc, ih hcs]

/-- Splitting a space-free token, a space, then a remainder yields the token
followed by the split of the remainder. -/
theorem splitOnSpace_append :
    ∀ t r : List Char, spaceChar ∉ t →
      splitOnSpace (t ++ spaceChar :: r) = t :: splitOnSpace r := by
  intro t
  induction t with
  | nil =>
    intro r _
    simp [splitOnSpace]
  | cons c cs ih =>
    intro r h
    have hc : ¬ c = spaceChar := by
      intro he
      exact h (List.mem_cons.mpr (Or.inl he.symm))
    have hcs : spaceChar ∉ cs := fun hm => h (List.mem_cons.mpr (Or.inr hm))
    show splitOnSpace (c :: (cs ++ spaceChar :: r)) = (c :: cs) :: splitOnSpace r
    simp [splitOnSpace, hc, ih r hcs]

/-- `splitOnSpace` is a left inverse of `joinSpace` on non-empty lists of
space-free tokens. -/
theorem splitOnSpace_joinSpace :
    ∀ ts : List (List Char), ts ≠ [] → (∀ t ∈ ts, spaceChar ∉ t) →
      splitOnSpace (joinSpace ts) = ts := by
  intro ts
  induction ts with
  | nil => intro h; exact absurd rfl h
  | cons t rest ih =>
    intro _ hns
    cases rest with
    | nil =>
      show splitOnSpace (joinSpace [t]) = [t]
      exact splitOnSpace_of_noSpace t (hns t (List.mem_cons_self t []))
    | cons u us =>
      show splitOnSpace (joinSpace (t :: u :: us)) = t :: u :: us
      unfold joinSpace
      rw [splitOnSpace_append t _ (hns t (List.mem_cons_self t (u :: us)))]
      rw [ih (by simp) (fun x hx => hns x (List.mem_cons.mpr (Or.inr hx)))]

/-- Every token emitted by the sanitizing loop comes from a non-empty input
token, either unchanged or truncated to its first 30 characters. -/
theorem sanitizeTokens_shape :
    ∀ l : List (List Char), ∀ t ∈ sanitizeTokens l,
      ∃ e ∈ l, e ≠ [] ∧ t = if e.length > 30 then e.take 30 else e := by
  intro l
  induction l with
  | nil => simp [sanitizeTokens]
  | cons e rest ih =>
    intro t ht
    unfold sanitizeTokens at ht
    by_cases he : e = []
    · rw [if_neg (not_not_intro he)] at ht
      obtain ⟨u, hu, h1, h2⟩ := ih t ht
      exact ⟨u, List.mem_cons.mpr (Or.inr hu), h1, h2⟩
    · rw [if_pos he] at ht
      rcases List.mem_cons.mp ht with h | h
      · exact ⟨e, List.mem_cons_self e rest, he, h⟩
      · obtain ⟨u, hu, h1, h2⟩ := ih t h
        exact ⟨u, List.mem_cons.mpr (Or.inr hu), h1, h2⟩

/-- The sanitizing loop keeps a list of non-empty tokens of length at most
30 unchanged. -/
theorem sanitizeTokens_clean :
    ∀ ts : List (List Char), (∀ t ∈ ts, t ≠ [] ∧ ¬ t.length > 30) →
      sanitizeTokens ts = ts := by
  intro ts
  induction ts with
  | nil => intro; rfl
  | cons e rest ih =>
    intro h
    unfold sanitizeTokens
    rw [if_pos (h e (List.mem_cons_self e rest)).1,
      if_neg (h e (List.mem_cons_self e rest)).2,
      ih (fun t ht => h t (List.mem_cons.mpr (Or.inr ht)))]

/-- Every token emitted by the sanitizing loop on the tokens of a split is
non-empty, at most 30 characters long, and space-free. -/
theorem sanitizeTokens_splitOnSpace_props :
    ∀ s : List Char, ∀ u ∈ sanitizeTokens (splitOnSpace s),
      u ≠ [] ∧ u.length ≤ 30 ∧ spaceChar ∉ u := by
  intro s u hu
  obtain ⟨e, he, hne, hu_eq⟩ := sanitizeTokens_shape _ u hu
  have hnos : spaceChar ∉ e := splitOnSpace_noSpace s e he
  by_cases hl : e.length > 30
  · rw [hu_eq, if_pos hl]
    refine ⟨?_, ?_, ?_⟩
    · intro hemp
      have hlen := congrArg List.length hemp
      rw [List.length_take] at hlen
      simp only [List.length_nil] at hlen
      omega
    · simp [List.length_take]
    · intro hm
      exact hnos (List.take_subset 30 e hm)
  · rw [hu_eq, if_neg hl]
    exact ⟨hne, by omega, hnos⟩

/-- Re-sanitizing the joined output of the sanitizing loop reproduces the
same token list. -/
theorem sanitizeTokens_splitOnSpace_joinSpace :
    ∀ toks : List (List Char),
      (∀ u ∈ toks, u ≠ [] ∧ u.length ≤ 30 ∧ spaceChar ∉ u) →
      sanitizeTokens (splitOnSpace (joinSpace toks)) = toks := by
  intro toks h
  cases toks with
  | nil => rfl
  | cons t ts =>
    rw [splitOnSpace_joinSpace _ (by simp) (fun u hu => (h u hu).2.2)]
    exact sanitizeTokens_clean _
      (fun u hu => ⟨(h u hu).1, by have := (h u hu).2.1; omega⟩)

/-! ## The claims -/

/-- C1: `sanitize` splits its input on single spaces, drops the empty
tokens, truncates every token longer than 30 characters to its first 30
characters, and rejoins the survivors with single spaces — it agrees with
the filter-then-map pipeline `sanitizeSpec` written from the spec, and is
a total function of its input. -/
theorem sanitize_refines_spec : ∀ s : String, sanitize s = sanitizeSpec s := by
  intro s
  unfold sanitize sanitizeSpec
  have h : ∀ l : List (List Char), sanitizeTokens l =
      (l.filter (fun t => t ≠ [])).map (fun t => if t.length > 30 then t.take 30 else t) := by
    intro l
    induction l with
    | nil => rfl
    | cons e rest ih =>
      by_cases he : e = []
      · simp [sanitizeTokens, he, ih]
      · simp [sanitizeTokens, he, ih]
  rw [h]

/-- C2: the sanitizer is idempotent: sanitizing an already sanitized
string changes nothing. -/
theorem sanitize_idempotent : ∀ s : String, sanitize (sanitize s) = sanitize s := by
  intro s
  show String.mk (joinSpace (sanitizeTokens (splitOnSpace
      (String.mk (joinSpace (sanitizeTokens (splitOnSpace s.data)))).data))) =
    String.mk (joinSpace (sanitizeTokens (splitOnSpace s.data)))
  have hdata : (String.mk (joinSpace (sanitizeTokens (splitOnSpace s.data)))).data =
      joinSpace (sanitizeTokens (splitOnSpace s.data)) := rfl
  rw [hdata, sanitizeTokens_splitOnSpace_joinSpace _ (sanitizeTokens_splitOnSpace_props s.data)]

/-- C3: `nextOrder()` returns 1 on the empty collection and otherwise the
`order` of the collection's last item plus 1. -/
theorem nextOrder_spec :
    TodoList.nextOrder [] = 1 ∧
      ∀ (l : List Todo) (h : l ≠ []), TodoList.nextOrder l = (l.getLast h).order + 1 := by
  constructor
  · rfl
  · intro l h
    unfold TodoList.nextOrder
    rw [List.getLast?_eq_getLast l h]

/-- Witness for C3 at the one-element collection `[remA]`. -/
theorem nextOrder_spec_witness :
    TodoList.nextOrder [remA] = (([remA] : List Todo).getLast (by decide)).order + 1 :=
  nextOrder_spec.2 [remA] (by decide)

/-- C5: on every collection state, the done items and the remaining items
partition the collection: their counts sum to the total count. -/
theorem done_remaining_partition :
    ∀ l : List Todo,
      (TodoList.doneItems l).length + (TodoList.remaining l).length = l.length := by
  intro l
  unfold TodoList.doneItems TodoList.remaining
  induction l with
  | nil => rfl
  | cons t ts ih =>
    cases h : t.done <;> simp [List.filter_cons, h] <;> omega

/-- C10: `toggle` negates the `done` attribute and leaves `title`, `order`,
`createdAt`, `modifiedAt` and `taskInfo` unchanged. -/
theorem toggle_frame :
    ∀ t : Todo, (t.toggle).done = !t.done ∧ (t.toggle).title = t.title ∧
      (t.toggle).order = t.order ∧ (t.toggle).createdAt = t.createdAt ∧
      (t.toggle).modifiedAt = t.modifiedAt ∧ (t.toggle).taskInfo = t.taskInfo := by
  intro t
  exact ⟨rfl, rfl, rfl, rfl, rfl, rfl⟩

/-! ## Lemmas about the collection operations -/

/-- On a non-empty collection, `nextOrder` is the order of the last item
plus 1. -/
theorem nextOrder_of_ne_nil :
    ∀ (l : List Todo) (h : l ≠ []), TodoList.nextOrder l = (l.getLast h).order + 1 := by
  intro l h
  unfold TodoList.nextOrder
  rw [List.getLast?_eq_getLast l h]

/-- Inserting an item whose order exceeds every order in the collection
appends it at the end. -/
theorem insertSorted_append (t : Todo) :
    ∀ l : List Todo, (∀ x ∈ l, x.order < t.order) →
      TodoList.insertSorted t l = l ++ [t] := by
  intro l
  induction l with
  | nil => intro; rfl
  | cons x xs ih =>
    intro h
    unfold TodoList.insertSorted
    rw [if_neg (by have := h x (List.mem_cons_self x xs); omega)]
    rw [ih (fun y hy => h y (List.mem_cons.mpr (Or.inr hy)))]
    rfl

/-- One `create` appends the new item, bumps `nextOrder` by exactly 1, and
preserves strict sortedness and the order bound. -/
theorem create_step :
    ∀ (l : List Todo) (a : CreateAttrs),
      l.Pairwise (fun x y => x.order < y.order) →
      (∀ x ∈ l, x.order < TodoList.nextOrder l) →
      TodoList.create l a = l ++ [Todo.mkNew l a] ∧
      TodoList.nextOrder (TodoList.create l a) = TodoList.nextOrder l + 1 ∧
      (TodoList.create l a).Pairwise (fun x y => x.order < y.order) ∧
      (∀ x ∈ TodoList.create l a, x.order < TodoList.nextOrder (TodoList.create l a)) := by
  intro l a hp hbnd
  have horder : (Todo.mkNew l a).order = TodoList.nextOrder l := rfl
  have happ : TodoList.create l a = l ++ [Todo.mkNew l a] := by
    unfold TodoList.create
    exact insertSorted_append _ l (fun x hx => by rw [horder]; exact hbnd x hx)
  have hconcat : TodoList.nextOrder (l ++ [Todo.mkNew l a]) = (Todo.mkNew l a).order + 1 := by
    unfold TodoList.nextOrder
    rw [List.getLast?_concat]
  have hnext : TodoList.nextOrder (TodoList.create l a) = TodoList.nextOrder l + 1 := by
    rw [happ, hconcat, horder]
  refine ⟨happ, hnext, ?_, ?_⟩
  · rw [happ, List.pairwise_append]
    refine ⟨hp, List.pairwise_singleton _ _, ?_⟩
    intro x hx b hb
    rw [List.mem_singleton] at hb
    subst hb
    rw [horder]
    exact hbnd x hx
  · intro x hx
    rw [hnext]
    rw [happ] at hx
    rcases List.mem_append.mp hx with h | h
    · have := hbnd x h
      omega
    · rw [List.mem_singleton] at h
      subst h
      rw [horder]
      omega

/-- A sequence of `create` calls raises `nextOrder` by exactly its length,
and keeps the collection strictly sorted by order. -/
theorem createAll_next :
    ∀ (as : List CreateAttrs) (l : List Todo),
      l.Pairwise (fun x y => x.order < y.order) →
      (∀ x ∈ l, x.order < TodoList.nextOrder l) →
      TodoList.nextOrder (TodoList.createAll l as) =
          TodoList.nextOrder l + (as.length : Int) ∧
      (TodoList.createAll l as).Pairwise (fun x y => x.order < y.order) ∧
      (∀ x ∈ TodoList.createAll l as,
        x.order < TodoList.nextOrder (TodoList.createAll l as)) := by
  intro as
  induction as with
  | nil =>
    intro l hp hb
    exact ⟨by simp [TodoList.createAll], hp, hb⟩
  | cons a rest ih =>
    intro l hp hb
    obtain ⟨_, hnext, hp2, hb2⟩ := create_step l a hp hb
    have hcons : TodoList.createAll l (a :: rest) =
        TodoList.createAll (TodoList.create l a) rest := rfl
    obtain ⟨h1, h2, h3⟩ := ih (TodoList.create l a) hp2 hb2
    refine ⟨?_, by rw [hcons]; exact h2, by rw [hcons]; exact h3⟩
    rw [hcons, h1, hnext, List.length_cons]
    push_cast
    ring

/-! ## More claims -/

/-- C4: over any sequence of creations starting from the empty collection,
the values of `nextOrder()` at successive prefixes strictly increase, and
the orders in the resulting collection are pairwise distinct. -/
theorem nextOrder_strictly_increasing :
    ∀ (as : List CreateAttrs) (i j : Nat), i < j → j ≤ as.length →
      TodoList.nextOrder (TodoList.createAll [] (as.take i)) <
        TodoList.nextOrder (TodoList.createAll [] (as.take j)) ∧
      (TodoList.createAll [] as).Pairwise (fun a b => a.order ≠ b.order) := by
  intro as i j hij hj
  have base_p : ([] : List Todo).Pairwise (fun x y => x.order < y.order) :=
    List.Pairwise.nil
  have base_b : ∀ x ∈ ([] : List Todo), x.order < TodoList.nextOrder [] := by
    intro x hx
    cases hx
  constructor
  · rw [(createAll_next (as.take i) [] base_p base_b).1,
      (createAll_next (as.take j) [] base_p base_b).1,
      List.length_take, List.length_take]
    have hmini : min i as.length = i := by omega
    have hminj : min j as.length = j := by omega
    rw [hmini, hminj]
    have : (i : Int) < (j : Int) := by exact_mod_cast hij
    omega
  · exact ((createAll_next as [] base_p base_b).2.1).imp (fun hab => by omega)

/-- Witness for C4 on a two-creation sequence, prefixes of lengths 0
and 1. -/
theorem nextOrder_strictly_increasing_witness :
    TodoList.nextOrder (TodoList.createAll [] (([attrsA, attrsA]).take 0)) <
      TodoList.nextOrder (TodoList.createAll [] (([attrsA, attrsA]).take 1)) ∧
    (TodoList.createAll [] [attrsA, attrsA]).Pairwise (fun a b => a.order ≠ b.order) :=
  nextOrder_strictly_increasing [attrsA, attrsA] 0 1 (by decide) (by decide)

/-- C6: committing an edit with an empty title removes the item from the
collection (no save, no validation error); committing with a non-empty
title keeps the item, saving the new title, the modification date and the
sanitized notes. -/
theorem close_commit_spec :
    ∀ (v ti d : String) (l : List Todo) (i : Nat) (hi : i < l.length),
      (v = "" → TodoView.closeColl v ti d l i = l.eraseIdx i ∧
        (TodoView.closeColl v ti d l i).length + 1 = l.length) ∧
      (v ≠ "" → TodoView.closeColl v ti d l i =
          l.set i { l[i] with title := v, modifiedAt := some d, taskInfo := sanitize ti } ∧
        (TodoView.closeColl v ti d l i).length = l.length) := by
  intro v ti d l i hi
  have hget : l[i]? = some l[i] := List.getElem?_eq_getElem hi
  constructor
  · intro hv
    have hcc : TodoView.closeColl v ti d l i = l.eraseIdx i := by
      subst hv
      simp [TodoView.closeColl, hget, TodoView.close]
    refine ⟨hcc, ?_⟩
    rw [hcc, List.length_eraseIdx, if_pos hi]
    omega
  · intro hv
    have hcc : TodoView.closeColl v ti d l i =
        l.set i { l[i] with title := v, modifiedAt := some d, taskInfo := sanitize ti } := by
      simp [TodoView.closeColl, hget, TodoView.close, hv]
    exact ⟨hcc, by rw [hcc, List.length_set]⟩

/-- Witness for C6: an empty title committed on the one-item collection
`[remA]` deletes the item. -/
theorem close_commit_spec_witness :
    TodoView.closeColl "" "x" "d" [remA] 0 = ([remA] : List Todo).eraseIdx 0 ∧
      (TodoView.closeColl "" "x" "d" [remA] 0).length + 1 = ([remA] : List Todo).length :=
  (close_commit_spec "" "x" "d" [remA] 0 (by decide)).1 rfl

/-- Erasing items that are all done commutes past a not-done head. -/
theorem foldl_erase_cons_not_done :
    ∀ (ds : List Todo) (x : Todo) (xs : List Todo), x.done = false →
      (∀ d ∈ ds, d.done = true) →
      ds.foldl (fun acc t => acc.erase t) (x :: xs) =
        x :: ds.foldl (fun acc t => acc.erase t) xs := by
  intro ds
  induction ds with
  | nil => intro x xs _ _; rfl
  | cons d rest ih =>
    intro x xs hx hds
    have hdx : ¬ (x == d) := by
      simp only [beq_iff_eq]
      intro he
      rw [he, hds d (List.mem_cons_self d rest)] at hx
      exact Bool.noConfusion hx
    simp only [List.foldl_cons]
    rw [List.erase_cons_tail hdx]
    exact ih x (xs.erase d) hx (fun e he => hds e (List.mem_cons.mpr (Or.inr he)))

/-- Destroying every done model, one by one, leaves exactly the not-done
models, in order. -/
theorem clearCompleted_eq_filter :
    ∀ l : List Todo, TodoList.clearCompleted l = l.filter (fun t => !t.done) := by
  intro l
  unfold TodoList.clearCompleted TodoList.doneItems
  induction l with
  | nil => rfl
  | cons x xs ih =>
    cases hx : x.done with
    | false =>
      rw [List.filter_cons_of_neg (by simp [hx]),
        foldl_erase_cons_not_done _ x xs hx
          (fun d hd => by simpa using (List.mem_filter.mp hd).2),
        ih, List.filter_cons_of_pos (by simp [hx])]
    | true =>
      rw [List.filter_cons_of_pos (by simp [hx])]
      simp only [List.foldl_cons]
      rw [List.erase_cons_head, ih, List.filter_cons_of_neg (by simp [hx])]

/-- C7: after `clearCompleted`, the collection holds exactly the items
whose `done` flag is `false`; in particular, with 2 done items and 1
remaining item, exactly the remaining item is left. -/
theorem clearCompleted_spec :
    (∀ (l : List Todo) (t : Todo),
        t ∈ TodoList.clearCompleted l ↔ t ∈ l ∧ t.done = false) ∧
      TodoList.clearCompleted [doneA, doneB, remA] = [remA] := by
  constructor
  · intro l t
    rw [clearCompleted_eq_filter]
    simp [List.mem_filter]
  · decide

/-- On a collection sorted by `order`, the last item carries the maximum
order. -/
theorem getLast_order_eq_maxOrder :
    ∀ (l : List Todo) (h : l ≠ []),
      l.Pairwise (fun a b => a.order ≤ b.order) →
      (l.getLast h).order = maxOrder l := by
  intro l
  induction l with
  | nil => intro h; exact absurd rfl h
  | cons t rest ih =>
    intro h hp
    cases rest with
    | nil => rfl
    | cons u us =>
      have h2 : (u :: us) ≠ [] := by simp
      have hp2 : (u :: us).Pairwise (fun a b => a.order ≤ b.order) := hp.of_cons
      have hih := ih h2 hp2
      have hmem : (u :: us).getLast h2 ∈ u :: us := List.getLast_mem h2
      have hle : t.order ≤ ((u :: us).getLast h2).order :=
        (List.pairwise_cons.mp hp).1 _ hmem
      show ((u :: us).getLast h2).order = maxOrder (t :: u :: us)
      have hmax : maxOrder (t :: u :: us) = max t.order (maxOrder (u :: us)) := rfl
      rw [hmax, ← hih, max_eq_right hle]

/-- C8: an item created with no title attribute gets the default title
"empty todo...", `done = false`, and (on a collection sorted by order, the
collection invariant) order `maxOrder + 1`, or 1 on the empty
collection. -/
theorem newTodo_defaults :
    ∀ (l : List Todo) (attrs : CreateAttrs), attrs.title = none →
      l.Pairwise (fun a b => a.order ≤ b.order) →
      (Todo.mkNew l attrs).title = "empty todo..." ∧
      (Todo.mkNew l attrs).done = false ∧
      (l = [] → (Todo.mkNew l attrs).order = 1) ∧
      (l ≠ [] → (Todo.mkNew l attrs).order = maxOrder l + 1) := by
  intro l attrs ht hp
  refine ⟨by simp [Todo.mkNew, ht], rfl, ?_, ?_⟩
  · intro he
    subst he
    rfl
  · intro h
    show TodoList.nextOrder l = maxOrder l + 1
    rw [nextOrder_of_ne_nil l h, getLast_order_eq_maxOrder l h hp]

/-- Witness for C8 on the one-item collection `[remA]`. -/
theorem newTodo_defaults_witness :
    (Todo.mkNew [remA] attrsNoTitle).title = "empty todo..." ∧
      (Todo.mkNew [remA] attrsNoTitle).order = maxOrder [remA] + 1 :=
  ⟨(newTodo_defaults [remA] attrsNoTitle rfl (by simp)).1,
   (newTodo_defaults [remA] attrsNoTitle rfl (by simp)).2.2.2 (by simp)⟩

/-- C9 counterexample: key code 13 (Enter) is neither alphanumeric nor the
space, yet the handler does not return `false` on it — it commits the edit
(returning `undefined`). -/
theorem updateOnEnter_claim_counterexample :
    ¬ isAlnumOrSpace 13 ∧ ¬ TodoView.updateOnEnter 13 = some false := by
  decide

/-- C9 amended: for every key code other than 13 (Enter, which commits the
edit instead), a non-alphanumeric, non-space key code makes the handler
return `false`, and an alphanumeric or space key code makes it return
`true`. -/
theorem updateOnEnter_amended :
    ∀ k : Int, k ≠ 13 →
      (isAlnumOrSpace k → TodoView.updateOnEnter k = some true) ∧
      (¬ isAlnumOrSpace k → TodoView.updateOnEnter k = some false) := by
  intro k hk
  unfold TodoView.updateOnEnter isAlnumOrSpace
  rw [if_neg hk]
  constructor
  · intro h
    rw [if_pos (by omega)]
  · intro h
    rw [if_neg (by omega)]

/-- Witness for the amended C9 at key codes 65 (letter) and 33 (neither
alphanumeric nor space). -/
theorem updateOnEnter_amended_witness :
    TodoView.updateOnEnter 65 = some true ∧ TodoView.updateOnEnter 33 = some false :=
  ⟨(updateOnEnter_amended 65 (by decide)).1 (by decide),
   (updateOnEnter_amended 33 (by decide)).2 (by decide)⟩
